import Mathlib

set_option maxRecDepth 40000

/-!
Verification development for the create-titas-app scaffolding tool.

The definitions below are shallow embeddings of the JavaScript source:
  * the `{\x7bname\x7d}` variable substitution of `processFile`
    (src/utils/fileUtils, `processTemplateFiles`/`processDirectory`/`processFile`),
  * the `.template` rename step,
  * the copy filter of `copyFiles` combined with the custom filter passed by
    `createApp`,
  * the `package.json` patching of `processTemplate` (src/commands/create),
  * the fallback template generator `createBasicTemplate`
    (scripts/validate-templates),
  * and the `createApp` pipeline itself.

Strings are modelled as `List Char` internally (Lean `String` is a wrapper
around `List Char`), machine behaviour such as JavaScript's regex scan is
modelled explicitly, and all definitions are executable so that concrete runs
can be checked by `decide`.
-/

/-- JavaScript `\w` word characters: ASCII letters, digits and underscore.
`Char.isAlpha`/`Char.isDigit` in Lean are exactly the ASCII ranges. -/
def isWordChar (c : Char) : Bool :=
  c.isAlpha || c.isDigit || c = '_'

/-- Maximal run of word characters at the front of the list, with the rest.
This models the greedy `\w+` of the pattern `/\{\{(\w+)\}\}/g`: since `\x7d`
is not a word character, the greedy run (followed by the required `\x7d\x7d`)
never benefits from backtracking, so maximal munch is exact. -/
def takeWord : List Char → List Char × List Char
  | [] => ([], [])
  | c :: cs =>
    if isWordChar c then
      let p := takeWord cs
      (c :: p.1, p.2)
    else
      ([], c :: cs)

/-- Attempt to match the regex `\{\{(\w+)\}\}` at the head of the list:
two opening braces, a non-empty maximal word run, two closing braces.
Returns the captured identifier and the remaining input on success. -/
def matchVar : List Char → Option (List Char × List Char)
  | c1 :: c2 :: rest =>
    match (takeWord rest).2 with
    | d1 :: d2 :: rest' =>
      if c1 = '{' && c2 = '{' && !(takeWord rest).1.isEmpty && d1 = '}' && d2 = '}' then
        some ((takeWord rest).1, rest')
      else none
    | _ => none
  | _ => none

/-- `variables.hasOwnProperty(name)` / `variables[name]` on the variable
mapping, modelled as an association list (first binding wins). -/
def lookupVar (vars : List (String × String)) (w : List Char) : Option String :=
  (vars.find? (fun p => p.1 = String.mk w)).map (fun p => p.2)

/-- One left-to-right scan of `content.replace(variablePattern, cb)` from
`processFile`, together with the `hasChanges` flag the callback sets when a
variable is found in the mapping.  Matches are non-overlapping and the
replacement text is spliced in without being rescanned, exactly as
`String.prototype.replace` does.  `fuel` is an upper bound on the input
length (the scan advances at least one character per step). -/
def replaceVarsAux (vars : List (String × String)) : Nat → List Char → List Char × Bool
  | 0, l => (l, false)
  | _ + 1, [] => ([], false)
  | fuel + 1, c :: cs =>
    match matchVar (c :: cs) with
    | some (w, rest) =>
      match lookupVar vars w with
      | some v =>
        let p := replaceVarsAux vars fuel rest
        (v.data ++ p.1, true)
      | none =>
        let p := replaceVarsAux vars fuel rest
        ('{' :: '{' :: (w ++ '}' :: '}' :: p.1), p.2)
    | none =>
      let p := replaceVarsAux vars fuel cs
      (c :: p.1, p.2)

/-- The full replacement pass over a character list. -/
def replaceVars (vars : List (String × String)) (l : List Char) : List Char × Bool :=
  replaceVarsAux vars l.length l

/-- `content.replace(/\{\{(\w+)\}\}/g, cb)` on a string: the substituted
content produced by `processFile`. -/
def substituteContent (vars : List (String × String)) (s : String) : String :=
  String.mk (replaceVars vars s.data).1

/-- The `hasChanges` flag of `processFile` after the replacement pass:
`true` iff at least one `{\x7bname\x7d}` occurrence had `name` in the
variable mapping. -/
def contentChanged (vars : List (String × String)) (s : String) : Bool :=
  (replaceVars vars s.data).2

/-- Token view of a scan: a literal character, or a matched placeholder with
its identifier.  Used to state what the single pass does; the scan itself is
`replaceVarsAux`. -/
inductive Tok where
  | lit (c : Char)
  | ph (w : List Char)
deriving DecidableEq, Repr

/-- The match positions of the pattern `\{\{(\w+)\}\}` in the input: the same
left-to-right scan as `replaceVarsAux`, but recording tokens instead of
replacing.  The matches do not depend on the variable mapping. -/
def tokenizeAux : Nat → List Char → List Tok
  | 0, l => l.map Tok.lit
  | _ + 1, [] => []
  | fuel + 1, c :: cs =>
    match matchVar (c :: cs) with
    | some (w, rest) => Tok.ph w :: tokenizeAux fuel rest
    | none => Tok.lit c :: tokenizeAux fuel cs

/-- Token decomposition of a character list. -/
def tokenize (l : List Char) : List Tok :=
  tokenizeAux l.length l

/-- Rendering of one token under a variable mapping: a keyed placeholder
becomes its value, an unknown placeholder is reproduced byte-for-byte. -/
def renderTok (vars : List (String × String)) : Tok → List Char
  | Tok.lit c => [c]
  | Tok.ph w =>
    match lookupVar vars w with
    | some v => v.data
    | none => '{' :: '{' :: (w ++ ['}', '}'])

/-- Rendering of a token list under a variable mapping. -/
def renderToks (vars : List (String × String)) (ts : List Tok) : List Char :=
  (ts.map (renderTok vars)).flatten

/-- Is this token a placeholder whose identifier is a key of the mapping? -/
def keyedTok (vars : List (String × String)) : Tok → Bool
  | Tok.lit _ => false
  | Tok.ph w => (lookupVar vars w).isSome

/-- Does the scan of `l` contain a placeholder match whose identifier is a
key of the mapping? -/
def hasKeyedPlaceholder (vars : List (String × String)) (l : List Char) : Bool :=
  (tokenize l).any (keyedTok vars)

/-- Substring containment on character lists. -/
def containsSeq (pat : List Char) : List Char → Bool
  | [] => pat.isPrefixOf []
  | c :: cs => pat.isPrefixOf (c :: cs) || containsSeq pat cs

/-- Does `l` contain the literal text `{\x7bk\x7d}` for some key `k` of the
mapping, as a plain substring? -/
def containsKeyed (vars : List (String × String)) (l : List Char) : Bool :=
  vars.any (fun p => containsSeq ('{' :: '{' :: (p.1.data ++ ['}', '}'])) l)

/-- JavaScript `String.prototype.replace` with a *string* pattern: replaces
the first occurrence of `pat` in the input (the whole input is returned
unchanged when `pat` does not occur).  Used by `processFile` as
`filePath.replace(templateSuffix, "")`. -/
def replaceFirstAux (pat rep : List Char) : List Char → List Char
  | [] => []
  | c :: cs =>
    if pat.isPrefixOf (c :: cs) then rep ++ (c :: cs).drop pat.length
    else c :: replaceFirstAux pat rep cs

/-- Does the path end with the template marker suffix `.template`?
(`filePath.endsWith(templateSuffix)` in `processFile`.) -/
def endsWithTemplateMarker (s : String) : Bool :=
  ".template".data.isSuffixOf s.data

/-- The rename step of `processFile`: when the path ends with `.template`,
`filePath.replace(templateSuffix, "")` computes the new path (note: this is
a first-occurrence replacement, not a suffix strip). -/
def renameTemplateFile (filePath : String) : String :=
  if endsWithTemplateMarker filePath then
    String.mk (replaceFirstAux ".template".data [] filePath.data)
  else filePath

/-- Modelled from the spec: the rename the specification describes, namely
stripping the template marker suffix from the *end* of the name. -/
def stripMarkerSuffixSpec (filePath : String) : String :=
  if endsWithTemplateMarker filePath then
    String.mk (filePath.data.take (filePath.data.length - ".template".data.length))
  else filePath

/-- `path.basename`: the last `/`-separated component of a path. -/
def basenameChars (l : List Char) : List Char :=
  (l.reverse.takeWhile (fun c => c ≠ '/')).reverse

/-- `path.extname`: the suffix of the basename starting at its last dot;
empty when the basename has no dot or only a leading dot (Node's rule for
dotfiles such as `.gitignore`). -/
def extnameChars (l : List Char) : List Char :=
  let b := basenameChars l
  let r := b.reverse.takeWhile (fun c => c ≠ '.')
  if r.length = b.length then []
  else if r.length + 1 = b.length then []
  else '.' :: r.reverse

/-- The default options of `processTemplateFiles`: the allow-list of text
file extensions (the template suffix and the variable pattern are kept as
the literal defaults throughout). -/
def defaultFileExtensions : List String :=
  [".js", ".jsx", ".ts", ".tsx", ".json", ".md", ".html", ".css"]

/-- Result of `processFile` on one file, at the level of content and name:
the content after substitution, whether the file was rewritten on disk
(`hasChanges`), and the path after the rename step. -/
structure ProcessedFile where
  content : String
  wrote : Bool
  newPath : String
deriving DecidableEq, Repr

/-- `processFile(filePath, variables, options)` from the substitution walk:
a file is processed when its name ends with `.template` or its extension is
in the allow-list; the content is rewritten only when `hasChanges` was set;
template-suffixed files are renamed via first-occurrence replacement. -/
def processFile (vars : List (String × String)) (filePath : String) (content : String) :
    ProcessedFile :=
  let isTemplateFile := endsWithTemplateMarker filePath
  if isTemplateFile || defaultFileExtensions.contains (String.mk (extnameChars filePath.data)) then
    let p := replaceVars vars content.data
    { content := String.mk p.1
      wrote := p.2
      newPath := if isTemplateFile then renameTemplateFile filePath else filePath }
  else
    { content := content, wrote := false, newPath := filePath }

mutual
/-- A source file tree entry: a leaf file or a directory with children.
A mutual list type is used so that all recursions stay structural (and thus
computable by the kernel). -/
inductive FTree where
  | file (name : String)
  | dir (name : String) (children : FTrees)
/-- A list of file tree entries. -/
inductive FTrees where
  | nil
  | cons (t : FTree) (ts : FTrees)
end

/-- `path.join`-style concatenation used when walking a tree. -/
def pathJoin (base name : String) : String :=
  base ++ "/" ++ name

/-- The filter `copyFiles` installs for `fs.copy`, composed with the custom
filter `createApp` passes: an entry is skipped when its *full source path*
contains `node_modules` or `.git` as a substring, and otherwise when its
base name is one of `package-lock.json`, `yarn.lock`, `node_modules`. -/
def titasCopyFilter (src : String) : Bool :=
  if containsSeq "node_modules".data src.data || containsSeq ".git".data src.data then false
  else !(["package-lock.json", "yarn.lock", "node_modules"].contains
    (String.mk (basenameChars src.data)))

mutual
/-- `fs.copy` with a filter, on one entry: the filter is applied to the
entry's full source path; a rejected directory is pruned with its whole
subtree. -/
def copyTreeOne (flt : String → Bool) (base : String) : FTree → Option FTree
  | FTree.file n => if flt (pathJoin base n) then some (FTree.file n) else none
  | FTree.dir n ch =>
    if flt (pathJoin base n) then some (FTree.dir n (copyTreeMany flt (pathJoin base n) ch))
    else none
/-- `fs.copy` with a filter, on the children of a directory. -/
def copyTreeMany (flt : String → Bool) (base : String) : FTrees → FTrees
  | FTrees.nil => FTrees.nil
  | FTrees.cons t ts =>
    match copyTreeOne flt base t with
    | some t' => FTrees.cons t' (copyTreeMany flt base ts)
    | none => copyTreeMany flt base ts
end

mutual
/-- All entry paths of a tree, as component lists (the entry itself and
everything below it). -/
def pathsOne : FTree → List (List String)
  | FTree.file n => [[n]]
  | FTree.dir n ch => [n] :: (pathsMany ch).map (fun p => n :: p)
/-- All entry paths of a list of trees. -/
def pathsMany : FTrees → List (List String)
  | FTrees.nil => []
  | FTrees.cons t ts => pathsOne t ++ pathsMany ts
end

/-- Render a component path below a base directory as a path string. -/
def renderPath (base : String) (comps : List String) : String :=
  comps.foldl pathJoin base

/-- The non-empty prefixes of a component path (each ancestor, innermost
last). -/
def pathPrefixes : List String → List (List String)
  | [] => []
  | c :: cs => [c] :: (pathPrefixes cs).map (fun p => c :: p)

/-- Does every ancestor of the entry (and the entry itself) pass the copy
filter, when rendered below `base`? -/
def allAncestorsPass (flt : String → Bool) (base : String) (comps : List String) : Bool :=
  (pathPrefixes comps).all (fun p => flt (renderPath base p))

/-- The entry paths of an optional tree (none contributes nothing). -/
def pathsOpt : Option FTree → List (List String)
  | some t => pathsOne t
  | none => []

/-- Modelled from the spec: the exclusion set of base names the
specification describes for the Directory Copier — the version-control
directory, the dependency-cache directory, build/output directories,
lockfiles, and local environment files. -/
def specExclusionSet : List String :=
  [".git", "node_modules", "dist", "build", ".next", "out",
   "package-lock.json", "yarn.lock",
   ".env", ".env.local", ".env.development.local", ".env.test.local",
   ".env.production.local"]

/-- The `package.json` manifest, with the fields the tool reads and writes.
JavaScript objects are modelled as association lists in insertion order;
absent mappings are the empty list.  (`private` is a Lean keyword, hence
`privateFlag`.) -/
structure Manifest where
  name : String
  version : String
  privateFlag : Bool
  scripts : List (String × String)
  dependencies : List (String × String)
  devDependencies : List (String × String)
deriving DecidableEq, Repr

/-- The commander options `createApp` receives.  Boolean flags that were not
passed are absent from the options object (commander omits them), which is
what the `Option Bool`-like presence fields model; `git` and `install` are
negatable options and always present, defaulting to `true`. -/
structure CreateOptions where
  templateFlag : Option String := none
  typescript : Bool := false
  tailwind : Bool := false
  git : Bool := true
  install : Bool := true
  verbose : Bool := false
deriving DecidableEq, Repr

/-- The basic manifest `processTemplate` synthesizes in its catch branch
when `package.json` is absent or unreadable (no dependency mappings). -/
def basicPackageJson (projectName : String) : Manifest :=
  { name := projectName
    version := "0.1.0"
    privateFlag := true
    scripts := [("dev", "next dev"), ("build", "next build"),
                ("start", "next start"), ("lint", "next lint")]
    dependencies := []
    devDependencies := [] }

/-- The TypeScript dev-dependency entries merged when `--typescript` is
set. -/
def tsDevDeps : List (String × String) :=
  [("typescript", "^5.0.0"), ("@types/node", "^20.0.0"),
   ("@types/react", "^18.0.0"), ("@types/react-dom", "^18.0.0")]

/-- The Tailwind dev-dependency entries merged when `--tailwind` is set. -/
def twDevDeps : List (String × String) :=
  [("tailwindcss", "^3.3.0"), ("postcss", "^8.4.0"), ("autoprefixer", "^10.4.0")]

/-- JavaScript object-literal key assignment: if the key is present the
entry is updated in place, otherwise the pair is appended. -/
def setKey (l : List (String × String)) (k v : String) : List (String × String) :=
  if l.any (fun p => p.1 = k) then
    l.map (fun p => if p.1 = k then (k, v) else p)
  else l ++ [(k, v)]

/-- JavaScript object spread `{ ...old, ...new }`: every entry of `new` is
assigned into `old` in order (existing keys keep their position, new keys
are appended). -/
def mergeAssoc (old new : List (String × String)) : List (String × String) :=
  new.foldl (fun acc p => setKey acc p.1 p.2) old

/-- The keys of an association list. -/
def keysOf (l : List (String × String)) : List String :=
  l.map (fun p => p.1)

/-- The keys of the flag-specific dev-dependency entries active under the
given options. -/
def flagDepKeys (o : CreateOptions) : List String :=
  (if o.typescript then keysOf tsDevDeps else [])
    ++ (if o.tailwind then keysOf twDevDeps else [])

/-- The `package.json` patching of `processTemplate` (src/commands/create):
parse or synthesize the manifest, set `name` to the project name, and merge
the flag-specific dev-dependency entries with object spread. -/
def processTemplateManifest (existing : Option Manifest) (projectName : String)
    (o : CreateOptions) : Manifest :=
  let pj := match existing with
    | some m => m
    | none => basicPackageJson projectName
  let pj := { pj with name := projectName }
  let pj := if o.typescript then
      { pj with devDependencies := mergeAssoc pj.devDependencies tsDevDeps }
    else pj
  if o.tailwind then
    { pj with devDependencies := mergeAssoc pj.devDependencies twDevDeps }
  else pj

/-- What `checkDirectory` can observe about the target path: absent,
present with a list of entries, or a filesystem error while checking
(e.g. an unreadable directory). -/
inductive DirStatus where
  | absent
  | present (entries : List String)
  | unreadable
deriving DecidableEq, Repr

/-- `checkDirectory(dirPath)`: returns `(exists, isEmpty)`; the catch branch
logs the error and returns `exists = false, isEmpty = true`. -/
def checkDirectory : DirStatus → Bool × Bool
  | DirStatus.absent => (false, true)
  | DirStatus.present es => (true, es.isEmpty)
  | DirStatus.unreadable => (false, true)

/-- A file in the modelled target tree: plain text content, or the
structured manifest document (read and written via `readJson`/`writeJson`;
the textual walk leaves it to the structured patcher, which has already run
on it). -/
inductive FileData where
  | text (s : String)
  | json (m : Manifest)
deriving DecidableEq, Repr

/-- The environment a `createApp` run executes in: the state of the target
directory, whether the resolved template directory exists on disk and its
(relative path, content) entries after the copy filter, whether `fs.copy`
rejects mid-copy, and whether the package-manager install rejects. -/
structure World where
  dirStatus : DirStatus
  templateExists : Bool
  templateFiles : List (String × FileData)
  copyFails : Bool
  installFails : Bool
deriving DecidableEq, Repr

/-- The copy step of `createApp`: `copyFiles(templatePath, projectPath, …)`.
`fs.copy` rejects when the template directory is missing or a file is
unreadable; `copyFiles` catches that, logs, and returns `false` with nothing
copied.  On success the filtered template entries are mirrored.  (The
per-entry path filtering is modelled in `copyTreeOne`/`copyTreeMany`;
`templateFiles` here are the entries that survive it.) -/
def copyStep (w : World) : Bool × List (String × FileData) :=
  if w.templateExists && !w.copyFails then (true, w.templateFiles)
  else (false, [])

/-- Find a file by path in the modelled target tree. -/
def findFile (files : List (String × FileData)) (p : String) : Option FileData :=
  (files.find? (fun f => f.1 = p)).map (fun f => f.2)

/-- Write a file in the modelled target tree (update in place or create). -/
def setFile (files : List (String × FileData)) (p : String) (d : FileData) :
    List (String × FileData) :=
  if files.any (fun f => f.1 = p) then
    files.map (fun f => if f.1 = p then (p, d) else f)
  else files ++ [(p, d)]

/-- The variables object `createApp` passes to `processTemplate`:
`{ projectName, templateType, ...options }`.  Commander flag values are
booleans; `String.prototype.replace` stringifies them, so they are modelled
as the strings `"true"`/`"false"`; absent flags contribute no key. -/
def mkVars (projectName templateType : String) (o : CreateOptions) :
    List (String × String) :=
  [("projectName", projectName), ("templateType", templateType)]
    ++ (match o.templateFlag with | some t => [(t, "true")] | none => [])
    ++ (if o.typescript then [("typescript", "true")] else [])
    ++ (if o.tailwind then [("tailwind", "true")] else [])
    ++ [("git", if o.git then "true" else "false"),
        ("install", if o.install then "true" else "false")]
    ++ (if o.verbose then [("verbose", "true")] else [])

/-- The substitution walk `processTemplateFiles` over the target tree: each
text file goes through `processFile` (content substitution, write-back when
changed, `.template` rename); the manifest file was already patched
structurally. -/
def substituteStep (vars : List (String × String)) (files : List (String × FileData)) :
    List (String × FileData) :=
  files.map (fun f =>
    match f.2 with
    | FileData.json _ => f
    | FileData.text c =>
      let r := processFile vars f.1 c
      (r.newPath, FileData.text r.content))

/-- The observable outcome of a `createApp` run. -/
structure RunResult where
  finished : Bool
  exitCode : Nat
  failedEarly : Bool
  cleanupRan : Bool
  bootstrapInvoked : Bool
  installWarned : Bool
  files : List (String × FileData)
deriving DecidableEq, Repr

/-- The `createApp` pipeline (src/commands/create), after name validation
and template choice: check the target directory (fatal `exit(1)` before any
mutation when it exists non-empty), create it, copy the template
(`copyFiles` swallows its own errors and returns a boolean that is ignored),
patch `package.json`, run the substitution walk, optionally install
(failure is caught and downgraded to a warning), optionally set up git
(warnings only), and succeed.  The catch-and-cleanup branch of the `try`
block is represented by `cleanupRan`: none of the awaited steps rejects
(each catches its own errors), so it is never entered; `fs.remove` and the
re-raise would set it.  No branch of the pipeline calls the template
bootstrapper (`createBasicTemplate` belongs to the standalone validation
script), which `bootstrapInvoked` records. -/
def createAppRun (w : World) (projectName templateType : String) (o : CreateOptions) :
    RunResult :=
  let chk := checkDirectory w.dirStatus
  if chk.1 && !chk.2 then
    { finished := false, exitCode := 1, failedEarly := true, cleanupRan := false,
      bootstrapInvoked := false, installWarned := false, files := [] }
  else
    let cp := copyStep w
    let existing := match findFile cp.2 "package.json" with
      | some (FileData.json m) => some m
      | _ => none
    let pj := processTemplateManifest existing projectName o
    let files1 := setFile cp.2 "package.json" (FileData.json pj)
    let files2 := substituteStep (mkVars projectName templateType o) files1
    { finished := true, exitCode := 0, failedEarly := false, cleanupRan := false,
      bootstrapInvoked := false,
      installWarned := o.install && w.installFails,
      files := files2 }

/-- `templateName.charAt(0).toUpperCase() + templateName.slice(1)` from the
readme synthesized by `createBasicTemplate`. -/
def capitalizeFirst (s : String) : String :=
  match s.data with
  | [] => ""
  | c :: cs => String.mk (c.toUpper :: cs)

/-- `getTemplateDescription(templateName)` from the template validator. -/
def getTemplateDescription (templateName : String) : String :=
  if templateName = "portfolio" then "A beautiful portfolio template to showcase your work"
  else if templateName = "ecom" then "An e-commerce template with shopping cart functionality"
  else if templateName = "dashboard" then "A dashboard template with charts and analytics"
  else if templateName = "webapp" then "A full-stack web application template"
  else "A Next.js application template"

/-- The `README.md` written by `createBasicTemplate`. -/
def bootstrapReadme (templateName : String) : String :=
  "# \x7b\x7bprojectName\x7d\x7d\n\nThis is a [Next.js](https://nextjs.org/) project created with create-titas-app using the "
    ++ templateName
    ++ " template.\n\n## Getting Started\n\nFirst, run the development server:\n\n\x60\x60\x60bash\nnpm run dev\n# or\nyarn dev\n\x60\x60\x60\n\nOpen [http://localhost:3000](http://localhost:3000) with your browser to see the result.\n\n## Template: "
    ++ capitalizeFirst templateName
    ++ "\n\nThis template includes basic structure for a "
    ++ templateName
    ++ " application.\n\n## Learn More\n\nTo learn more about Next.js, take a look at the following resources:\n\n- [Next.js Documentation](https://nextjs.org/docs) - learn about Next.js features and API.\n- [Learn Next.js](https://nextjs.org/learn) - an interactive Next.js tutorial.\n"

/-- The `pages/index.js` written by `createBasicTemplate`
(`getTemplateIndexContent`). -/
def bootstrapIndexJs (templateName : String) : String :=
  "import Head from \x27next/head\x27\nimport styles from \x27../styles/globals.css\x27\n\nexport default function Home() \x7b\n  return (\n    <div className=\"container\">\n      <Head>\n        <title>\x7b\x7bprojectName\x7d\x7d</title>\n        <meta name=\"description\" content=\"Generated by create-titas-app\" />\n        <link rel=\"icon\" href=\"/favicon.ico\" />\n      </Head>\n\n      <main className=\"main\">\n        <h1 className=\"title\">\n          Welcome to \x7b\x7bprojectName\x7d\x7d\n        </h1>\n\n        <p className=\"description\">\n          "
    ++ getTemplateDescription templateName
    ++ "\n        </p>\n\n        <p className=\"description\">\n          Get started by editing <code>pages/index.js</code>\n        </p>\n      </main>\n    </div>\n  )\n\x7d"

/-- The `styles/globals.css` written by `createBasicTemplate`. -/
def bootstrapGlobalsCss : String :=
  "html,\nbody \x7b\n  padding: 0;\n  margin: 0;\n  font-family: -apple-system, BlinkMacSystemFont, Segoe UI, Roboto, Oxygen,\n    Ubuntu, Cantarell, Fira Sans, Droid Sans, Helvetica Neue, sans-serif;\n\x7d\n\na \x7b\n  color: inherit;\n  text-decoration: none;\n\x7d\n\n* \x7b\n  box-sizing: border-box;\n\x7d\n\n.container \x7b\n  min-height: 100vh;\n  padding: 0 0.5rem;\n  display: flex;\n  flex-direction: column;\n  justify-content: center;\n  align-items: center;\n\x7d\n\n.main \x7b\n  padding: 5rem 0;\n  flex: 1;\n  display: flex;\n  flex-direction: column;\n  justify-content: center;\n  align-items: center;\n\x7d\n\n.title \x7b\n  margin: 0;\n  line-height: 1.15;\n  font-size: 4rem;\n  text-align: center;\n\x7d\n\n.description \x7b\n  text-align: center;\n  line-height: 1.5;\n  font-size: 1.5rem;\n\x7d\n"

/-- The `package.json` object built by `createBasicPackageJson`, including
the template-specific dependencies. -/
def bootstrapPackageJson (templateName : String) : Manifest :=
  { name := "\x7b\x7bprojectName\x7d\x7d"
    version := "0.1.0"
    privateFlag := true
    scripts := [("dev", "next dev"), ("build", "next build"),
                ("start", "next start"), ("lint", "next lint")]
    dependencies :=
      [("next", "^14.0.0"), ("react", "^18.2.0"), ("react-dom", "^18.2.0")]
        ++ (if templateName = "dashboard" then [("recharts", "^2.8.0")]
            else if templateName = "ecom" then [("stripe", "^14.0.0")] else [])
    devDependencies := [("eslint", "^8.0.0"), ("eslint-config-next", "^14.0.0")] }

/-- A JSON string literal (the values here need no escaping). -/
def jsonStr (s : String) : String :=
  "\"" ++ s ++ "\""

/-- Join with a separator. -/
def joinSep (sep : String) : List String → String
  | [] => ""
  | [x] => x
  | x :: xs => x ++ sep ++ joinSep sep xs

/-- A nested string-to-string object, rendered as `JSON.stringify(·, null, 2)`
renders it at depth one. -/
def renderObj2 (ps : List (String × String)) : String :=
  match ps with
  | [] => "\x7b\x7d"
  | _ =>
    "\x7b\n"
      ++ joinSep ",\n" (ps.map (fun p => "    " ++ jsonStr p.1 ++ ": " ++ jsonStr p.2))
      ++ "\n  \x7d"

/-- The textual `package.json` produced by `fs.writeJson(path, obj,
{ spaces: 2 })`: `JSON.stringify(obj, null, 2)` with keys in insertion
order, plus the trailing newline jsonfile appends. -/
def renderManifestJson (m : Manifest) : String :=
  "\x7b\n  \"name\": " ++ jsonStr m.name
    ++ ",\n  \"version\": " ++ jsonStr m.version
    ++ ",\n  \"private\": " ++ (if m.privateFlag then "true" else "false")
    ++ ",\n  \"scripts\": " ++ renderObj2 m.scripts
    ++ ",\n  \"dependencies\": " ++ renderObj2 m.dependencies
    ++ ",\n  \"devDependencies\": " ++ renderObj2 m.devDependencies
    ++ "\n\x7d\n"

/-- The files `createBasicTemplate` writes for a missing template, as
(relative path, textual content) pairs. -/
def bootstrapFiles (templateName : String) : List (String × String) :=
  [("package.json", renderManifestJson (bootstrapPackageJson templateName)),
   ("README.md", bootstrapReadme templateName),
   ("pages/index.js", bootstrapIndexJs templateName),
   ("styles/globals.css", bootstrapGlobalsCss)]

/-- Key `k` is present in the association list and every entry with key `k`
carries value `v`. -/
def keyBound (l : List (String × String)) (k v : String) : Prop :=
  (∃ q ∈ l, q.1 = k) ∧ ∀ q ∈ l, q.1 = k → q.2 = v

/-! ### Lemmas about the substitution scan -/

theorem takeWord_eq (l : List Char) : (takeWord l).1 ++ (takeWord l).2 = l := by
  induction l with
  | nil => rfl
  | cons c cs ih =>
    simp only [takeWord]
    split
    · simpa using ih
    · rfl

theorem matchVar_shape {l w rest : List Char} (h : matchVar l = some (w, rest)) :
    l = '{' :: '{' :: (w ++ '}' :: '}' :: rest) ∧ w ≠ [] := by
  match l with
  | [] => exact absurd h (by simp [matchVar])
  | [c] => exact absurd h (by simp [matchVar])
  | c1 :: c2 :: r =>
    rw [matchVar] at h
    split at h
    · rename_i d1 d2 r' heq
      split at h
      · rename_i hcond
        simp only [Bool.and_eq_true, decide_eq_true_eq, Bool.not_eq_true'] at hcond
        obtain ⟨⟨⟨⟨hc1, hc2⟩, hne⟩, hd1⟩, hd2⟩ := hcond
        obtain ⟨hw, hr⟩ := Prod.mk.injEq _ _ _ _ ▸ Option.some.inj h
        have hsplit := takeWord_eq r
        rw [hw] at hsplit hne
        rw [heq] at hsplit
        subst hc1 hc2 hd1 hd2 hr
        constructor
        · rw [← hsplit]
        · intro hwnil
          rw [hwnil] at hne
          simp [List.isEmpty] at hne
      · exact absurd h (by simp)
    · exact absurd h (by simp)

theorem matchVar_rest_len {l w rest : List Char} (h : matchVar l = some (w, rest)) :
    rest.length + 5 ≤ l.length := by
  obtain ⟨hshape, hne⟩ := matchVar_shape h
  have : 1 ≤ w.length := by
    cases w with
    | nil => exact absurd rfl hne
    | cons a b => simp
  subst hshape
  simp only [List.length_cons, List.length_append]
  omega

theorem replaceVarsAux_fuel (vars : List (String × String)) :
    ∀ f₁ f₂ l, l.length ≤ f₁ → l.length ≤ f₂ →
      replaceVarsAux vars f₁ l = replaceVarsAux vars f₂ l := by
  intro f₁
  induction f₁ with
  | zero =>
    intro f₂ l h1 _
    have : l = [] := List.length_eq_zero.mp (Nat.le_zero.mp h1)
    subst this
    cases f₂ <;> rfl
  | succ f ih =>
    intro f₂ l h1 h2
    cases l with
    | nil => cases f₂ <;> rfl
    | cons c cs =>
      cases f₂ with
      | zero => simp at h2
      | succ f₂' =>
        simp only [replaceVarsAux]
        cases hm : matchVar (c :: cs) with
        | some p =>
          obtain ⟨w, rest⟩ := p
          have hlen := matchVar_rest_len hm
          simp only [List.length_cons] at h1 h2 hlen
          have hr := ih f₂' rest (by omega) (by omega)
          simp [hr]
        | none =>
          simp only [List.length_cons] at h1 h2
          have hr := ih f₂' cs (by omega) (by omega)
          simp [hr]

theorem tokenizeAux_fuel :
    ∀ f₁ f₂ l, l.length ≤ f₁ → l.length ≤ f₂ →
      tokenizeAux f₁ l = tokenizeAux f₂ l := by
  intro f₁
  induction f₁ with
  | zero =>
    intro f₂ l h1 _
    have : l = [] := List.length_eq_zero.mp (Nat.le_zero.mp h1)
    subst this
    cases f₂ <;> rfl
  | succ f ih =>
    intro f₂ l h1 h2
    cases l with
    | nil => cases f₂ <;> rfl
    | cons c cs =>
      cases f₂ with
      | zero => simp at h2
      | succ f₂' =>
        simp only [tokenizeAux]
        cases hm : matchVar (c :: cs) with
        | some p =>
          obtain ⟨w, rest⟩ := p
          have hlen := matchVar_rest_len hm
          simp only [List.length_cons] at h1 h2 hlen
          have hr := ih f₂' rest (by omega) (by omega)
          simp [hr]
        | none =>
          simp only [List.length_cons] at h1 h2
          have hr := ih f₂' cs (by omega) (by omega)
          simp [hr]

theorem replaceVarsAux_eq_render (vars : List (String × String)) :
    ∀ f l, l.length ≤ f →
      replaceVarsAux vars f l
        = (renderToks vars (tokenizeAux f l), (tokenizeAux f l).any (keyedTok vars)) := by
  intro f
  induction f with
  | zero =>
    intro l h
    have : l = [] := List.length_eq_zero.mp (Nat.le_zero.mp h)
    subst this
    rfl
  | succ f ih =>
    intro l h
    cases l with
    | nil => rfl
    | cons c cs =>
      simp only [replaceVarsAux, tokenizeAux]
      cases hm : matchVar (c :: cs) with
      | some p =>
        obtain ⟨w, rest⟩ := p
        have hlen := matchVar_rest_len hm
        simp only [List.length_cons] at h hlen
        have hrec := ih rest (by omega)
        cases hv : lookupVar vars w with
        | some v =>
          simp only [hrec, renderToks, List.map_cons, List.flatten_cons, List.any_cons,
            renderTok, keyedTok, hv, Option.isSome_some, Bool.true_or]
        | none =>
          simp only [hrec, renderToks, List.map_cons, List.flatten_cons, List.any_cons,
            renderTok, keyedTok, hv, Option.isSome_none, Bool.false_or]
          simp [List.append_assoc]
      | none =>
        simp only [List.length_cons] at h
        have hrec := ih cs (by omega)
        simp [hrec, renderToks, renderTok, keyedTok]

theorem renderToks_lits (vars : List (String × String)) (l : List Char) :
    renderToks vars (l.map Tok.lit) = l := by
  induction l with
  | nil => rfl
  | cons c cs ih => simp [renderToks, renderTok] at ih ⊢; exact ih

theorem renderToks_id (vars : List (String × String)) :
    ∀ f l, (tokenizeAux f l).all (fun t => !keyedTok vars t) = true →
      renderToks vars (tokenizeAux f l) = l := by
  intro f
  induction f with
  | zero => intro l _; exact renderToks_lits vars l
  | succ f ih =>
    intro l hall
    cases l with
    | nil => rfl
    | cons c cs =>
      simp only [tokenizeAux] at hall ⊢
      cases hm : matchVar (c :: cs) with
      | some p =>
        obtain ⟨w, rest⟩ := p
        rw [hm] at hall
        replace hall : (Tok.ph w :: tokenizeAux f rest).all (fun t => !keyedTok vars t) = true :=
          hall
        show renderToks vars (Tok.ph w :: tokenizeAux f rest) = c :: cs
        simp only [List.all_cons, Bool.and_eq_true, Bool.not_eq_true'] at hall
        obtain ⟨hhead, htail⟩ := hall
        have hnone : lookupVar vars w = none := by
          cases hv : lookupVar vars w with
          | none => rfl
          | some v => simp [keyedTok, hv] at hhead
        have hrec : (List.map (renderTok vars) (tokenizeAux f rest)).flatten = rest :=
          ih rest htail
        simp only [renderToks, List.map_cons, List.flatten_cons, renderTok, hnone,
          List.cons_append, List.append_assoc, List.nil_append]
        rw [hrec]
        exact ((matchVar_shape hm).1).symm
      | none =>
        rw [hm] at hall
        replace hall : (Tok.lit c :: tokenizeAux f cs).all (fun t => !keyedTok vars t) = true :=
          hall
        show renderToks vars (Tok.lit c :: tokenizeAux f cs) = c :: cs
        simp only [List.all_cons, Bool.and_eq_true] at hall
        have hrec : (List.map (renderTok vars) (tokenizeAux f cs)).flatten = cs :=
          ih cs hall.2
        simp [renderToks, renderTok, hrec]

theorem replaceVars_id (vars : List (String × String)) (l : List Char)
    (h : hasKeyedPlaceholder vars l = false) : replaceVars vars l = (l, false) := by
  have heq := replaceVarsAux_eq_render vars l.length l (Nat.le_refl _)
  unfold hasKeyedPlaceholder tokenize at h
  have hall : (tokenizeAux l.length l).all (fun t => !keyedTok vars t) = true := by
    rw [List.all_eq_not_any_not]
    simp only [Bool.not_not]
    rw [h]
    rfl
  unfold replaceVars
  rw [heq, renderToks_id vars l.length l hall, h]

theorem containsSeq_cons_of (pat : List Char) (c : Char) (cs : List Char)
    (h : containsSeq pat cs = true) : containsSeq pat (c :: cs) = true := by
  simp only [containsSeq, Bool.or_eq_true]
  exact Or.inr h

theorem containsSeq_append_left (pat s t : List Char)
    (h : containsSeq pat t = true) : containsSeq pat (s ++ t) = true := by
  induction s with
  | nil => simpa using h
  | cons c cs ih => exact containsSeq_cons_of pat c (cs ++ t) ih

theorem containsSeq_of_isPrefixOf (pat l : List Char)
    (h : pat.isPrefixOf l = true) : containsSeq pat l = true := by
  cases l with
  | nil => simpa [containsSeq] using h
  | cons c cs =>
    simp only [containsSeq, Bool.or_eq_true]
    exact Or.inl h

theorem tokenized_keyed_containsKeyed (vars : List (String × String)) :
    ∀ f l, l.length ≤ f → (tokenizeAux f l).any (keyedTok vars) = true →
      containsKeyed vars l = true := by
  intro f
  induction f with
  | zero =>
    intro l hl hany
    have : l = [] := List.length_eq_zero.mp (Nat.le_zero.mp hl)
    subst this
    simp [tokenizeAux] at hany
  | succ f ih =>
    intro l hl hany
    cases l with
    | nil => simp [tokenizeAux] at hany
    | cons c cs =>
      simp only [tokenizeAux] at hany
      cases hm : matchVar (c :: cs) with
      | some p =>
        obtain ⟨w, rest⟩ := p
        rw [hm] at hany
        replace hany : (Tok.ph w :: tokenizeAux f rest).any (keyedTok vars) = true := hany
        simp only [List.any_cons, Bool.or_eq_true] at hany
        obtain ⟨hshape, -⟩ := matchVar_shape hm
        cases hany with
        | inl hk =>
          simp only [keyedTok, Option.isSome_iff_exists] at hk
          obtain ⟨v, hv⟩ := hk
          unfold lookupVar at hv
          rw [Option.map_eq_some'] at hv
          obtain ⟨q, hq, -⟩ := hv
          have hmem := List.mem_of_find?_eq_some hq
          have hkey : q.1 = String.mk w := by
            have h' := List.find?_some hq
            simpa using h'
          unfold containsKeyed
          rw [List.any_eq_true]
          refine ⟨q, hmem, ?_⟩
          apply containsSeq_of_isPrefixOf
          rw [List.isPrefixOf_iff_prefix, hshape, hkey]
          show ('{' :: '{' :: (w ++ ['}', '}'])) <+: ('{' :: '{' :: (w ++ '}' :: '}' :: rest))
          exact ⟨rest, by simp⟩
        | inr htail =>
          have hlen := matchVar_rest_len hm
          simp only [List.length_cons] at hl hlen
          have hrest := ih rest (by omega) htail
          unfold containsKeyed at hrest ⊢
          rw [List.any_eq_true] at hrest ⊢
          obtain ⟨q, hqmem, hqc⟩ := hrest
          refine ⟨q, hqmem, ?_⟩
          rw [hshape]
          rw [show '{' :: '{' :: (w ++ '}' :: '}' :: rest)
                = ('{' :: '{' :: (w ++ ['}', '}'])) ++ rest by simp]
          exact containsSeq_append_left _ _ rest hqc
      | none =>
        rw [hm] at hany
        replace hany : (Tok.lit c :: tokenizeAux f cs).any (keyedTok vars) = true := hany
        simp only [List.any_cons, Bool.or_eq_true, keyedTok] at hany
        cases hany with
        | inl hk => simp at hk
        | inr htail =>
          simp only [List.length_cons] at hl
          have hcs := ih cs (by omega) htail
          unfold containsKeyed at hcs ⊢
          rw [List.any_eq_true] at hcs ⊢
          obtain ⟨q, hqmem, hqc⟩ := hcs
          exact ⟨q, hqmem, containsSeq_cons_of _ c cs hqc⟩

theorem not_containsKeyed_no_keyed (vars : List (String × String)) (l : List Char)
    (h : containsKeyed vars l = false) : hasKeyedPlaceholder vars l = false := by
  by_contra hk
  rw [Bool.not_eq_false] at hk
  unfold hasKeyedPlaceholder tokenize at hk
  have := tokenized_keyed_containsKeyed vars l.length l (Nat.le_refl _) hk
  rw [h] at this
  exact Bool.false_ne_true this

/-! ### Lemmas about object-spread merging -/

theorem mem_setKey_of_ne {l : List (String × String)} {q : String × String}
    (hq : q ∈ l) {k : String} (hne : q.1 ≠ k) (v : String) : q ∈ setKey l k v := by
  unfold setKey
  split
  · exact List.mem_map.mpr ⟨q, hq, by simp [hne]⟩
  · exact List.mem_append_left _ hq

theorem keyBound_setKey_self (l : List (String × String)) (k v : String) :
    keyBound (setKey l k v) k v := by
  unfold setKey
  split
  · rename_i hany
    rw [List.any_eq_true] at hany
    obtain ⟨q, hq, hqk⟩ := hany
    simp only [decide_eq_true_eq] at hqk
    refine ⟨⟨(k, v), List.mem_map.mpr ⟨q, hq, by simp [hqk]⟩, rfl⟩, ?_⟩
    intro r hr hrk
    obtain ⟨q', hq', hfq⟩ := List.mem_map.mp hr
    by_cases hc : q'.1 = k
    · rw [if_pos hc] at hfq
      rw [← hfq]
    · rw [if_neg hc] at hfq
      rw [← hfq] at hrk
      exact absurd hrk hc
  · rename_i hnotany
    refine ⟨⟨(k, v), List.mem_append_right _ (by simp), rfl⟩, ?_⟩
    intro r hr hrk
    rcases List.mem_append.mp hr with hl | hsing
    · rw [Bool.not_eq_true, List.any_eq_false] at hnotany
      have := hnotany r hl
      simp only [decide_eq_true_eq] at this
      exact absurd hrk this
    · simp only [List.mem_singleton] at hsing
      rw [hsing]

theorem keyBound_setKey_other {l : List (String × String)} {k v : String}
    (hb : keyBound l k v) {k' : String} (hne : k ≠ k') (v' : String) :
    keyBound (setKey l k' v') k v := by
  obtain ⟨⟨q, hq, hqk⟩, hall⟩ := hb
  constructor
  · exact ⟨q, mem_setKey_of_ne hq (by rw [hqk]; exact hne) v', hqk⟩
  · intro r hr hrk
    unfold setKey at hr
    split at hr
    · obtain ⟨q', hq', hfq⟩ := List.mem_map.mp hr
      by_cases hc : q'.1 = k'
      · rw [if_pos hc] at hfq
        subst hfq
        exact absurd hrk (Ne.symm hne)
      · rw [if_neg hc] at hfq
        subst hfq
        exact hall q' hq' hrk
    · rcases List.mem_append.mp hr with hl | hsing
      · exact hall r hl hrk
      · simp only [List.mem_singleton] at hsing
        subst hsing
        exact absurd hrk (Ne.symm hne)

theorem setKey_eq_of_keyBound {l : List (String × String)} {k v : String}
    (hb : keyBound l k v) : setKey l k v = l := by
  obtain ⟨⟨q, hq, hqk⟩, hall⟩ := hb
  unfold setKey
  rw [if_pos]
  · have : ∀ p ∈ l, (if p.1 = k then (k, v) else p) = p := by
      intro p hp
      by_cases hc : p.1 = k
      · rw [if_pos hc]
        have hv := hall p hp hc
        rw [← hc, ← hv]
      · rw [if_neg hc]
    exact (List.map_congr_left this).trans (List.map_id l)
  · rw [List.any_eq_true]
    exact ⟨q, hq, by simp [hqk]⟩

theorem keyBound_mergeAssoc_of_not_mem {k v : String} :
    ∀ (new : List (String × String)) (l : List (String × String)),
      keyBound l k v → k ∉ keysOf new → keyBound (mergeAssoc l new) k v := by
  intro new
  induction new with
  | nil => intro l hb _; exact hb
  | cons p new' ih =>
    intro l hb hk
    simp only [keysOf, List.map_cons, List.mem_cons, not_or] at hk
    show keyBound (mergeAssoc (setKey l p.1 p.2) new') k v
    exact ih (setKey l p.1 p.2) (keyBound_setKey_other hb hk.1 p.2)
      (by simpa [keysOf] using hk.2)

theorem keyBound_mergeAssoc_self {k v : String} :
    ∀ (new : List (String × String)) (l : List (String × String)),
      (k, v) ∈ new → (keysOf new).Nodup → keyBound (mergeAssoc l new) k v := by
  intro new
  induction new with
  | nil => intro l hmem _; simp at hmem
  | cons p new' ih =>
    intro l hmem hnd
    simp only [keysOf, List.map_cons, List.nodup_cons] at hnd
    show keyBound (mergeAssoc (setKey l p.1 p.2) new') k v
    rcases List.mem_cons.mp hmem with hhead | htail
    · have hp1 : p.1 = k := by rw [← hhead]
      have hp2 : p.2 = v := by rw [← hhead]
      rw [hp1, hp2]
      exact keyBound_mergeAssoc_of_not_mem new' _ (keyBound_setKey_self l k v)
        (by rw [← hp1]; simpa [keysOf] using hnd.1)
    · exact ih (setKey l p.1 p.2) htail (by simpa [keysOf] using hnd.2)

theorem mergeAssoc_eq_self :
    ∀ (new : List (String × String)) (l : List (String × String)),
      (∀ p ∈ new, keyBound l p.1 p.2) → mergeAssoc l new = l := by
  intro new
  induction new with
  | nil => intro l _; rfl
  | cons p new' ih =>
    intro l h
    show mergeAssoc (setKey l p.1 p.2) new' = l
    rw [setKey_eq_of_keyBound (h p (List.mem_cons_self p new'))]
    exact ih l (fun q hq => h q (List.mem_cons_of_mem p hq))

theorem mem_mergeAssoc_of_not_key {q : String × String} :
    ∀ (new : List (String × String)) (l : List (String × String)),
      q ∈ l → q.1 ∉ keysOf new → q ∈ mergeAssoc l new := by
  intro new
  induction new with
  | nil => intro l hq _; exact hq
  | cons p new' ih =>
    intro l hq hk
    simp only [keysOf, List.map_cons, List.mem_cons, not_or] at hk
    show q ∈ mergeAssoc (setKey l p.1 p.2) new'
    exact ih (setKey l p.1 p.2) (mem_setKey_of_ne hq hk.1 p.2)
      (by simpa [keysOf] using hk.2)

/-! ### Lemmas about the copy filter -/

theorem allAncestorsPass_nil (flt : String → Bool) (base : String) :
    allAncestorsPass flt base [] = true := rfl

theorem allAncestorsPass_cons (flt : String → Bool) (base n : String) (p : List String) :
    allAncestorsPass flt base (n :: p)
      = (flt (pathJoin base n) && allAncestorsPass flt (pathJoin base n) p) := by
  unfold allAncestorsPass
  rw [show pathPrefixes (n :: p) = [n] :: (pathPrefixes p).map (fun q => n :: q) from rfl]
  rw [List.all_cons, List.all_map]
  rfl

mutual
theorem mem_pathsOpt_copyOne (flt : String → Bool) (base : String) (t : FTree)
    (comps : List String) :
    comps ∈ pathsOpt (copyTreeOne flt base t)
      ↔ (comps ∈ pathsOne t ∧ allAncestorsPass flt base comps = true) := by
  cases t with
  | file n =>
    by_cases hf : flt (pathJoin base n)
    · simp only [copyTreeOne, if_pos hf, pathsOpt, pathsOne, List.mem_singleton]
      constructor
      · intro h
        subst h
        exact ⟨rfl, by simp [allAncestorsPass_cons, allAncestorsPass_nil, hf]⟩
      · intro h
        exact h.1
    · simp only [copyTreeOne, if_neg hf, pathsOpt, pathsOne, List.mem_singleton,
        List.not_mem_nil, false_iff, not_and]
      intro h
      subst h
      simp [allAncestorsPass_cons, allAncestorsPass_nil, hf]
  | dir n ch =>
    by_cases hf : flt (pathJoin base n)
    · simp only [copyTreeOne, if_pos hf, pathsOpt, pathsOne, List.mem_cons, List.mem_map]
      constructor
      · rintro (h | ⟨p, hp, hpe⟩)
        · subst h
          exact ⟨Or.inl rfl, by simp [allAncestorsPass_cons, allAncestorsPass_nil, hf]⟩
        · subst hpe
          have := (mem_pathsOpt_copyMany flt (pathJoin base n) ch p).mp hp
          exact ⟨Or.inr ⟨p, this.1, rfl⟩,
            by simp [allAncestorsPass_cons, hf, this.2]⟩
      · rintro ⟨h | ⟨p, hp, hpe⟩, hpass⟩
        · exact Or.inl h
        · subst hpe
          rw [allAncestorsPass_cons, hf, Bool.true_and] at hpass
          exact Or.inr ⟨p, (mem_pathsOpt_copyMany flt (pathJoin base n) ch p).mpr
            ⟨hp, hpass⟩, rfl⟩
    · simp only [copyTreeOne, if_neg hf, pathsOpt, pathsOne, List.mem_cons, List.mem_map,
        List.not_mem_nil, false_iff, not_and]
      rintro (h | ⟨p, _, hpe⟩)
      · subst h
        simp [allAncestorsPass_cons, allAncestorsPass_nil, hf]
      · subst hpe
        simp [allAncestorsPass_cons, hf]
theorem mem_pathsOpt_copyMany (flt : String → Bool) (base : String) (ts : FTrees)
    (comps : List String) :
    comps ∈ pathsMany (copyTreeMany flt base ts)
      ↔ (comps ∈ pathsMany ts ∧ allAncestorsPass flt base comps = true) := by
  cases ts with
  | nil => simp [copyTreeMany, pathsMany]
  | cons t ts' =>
    have hone := mem_pathsOpt_copyOne flt base t comps
    have hmany := mem_pathsOpt_copyMany flt base ts' comps
    have hsplit : comps ∈ pathsMany (copyTreeMany flt base (FTrees.cons t ts'))
        ↔ comps ∈ pathsOpt (copyTreeOne flt base t)
            ∨ comps ∈ pathsMany (copyTreeMany flt base ts') := by
      show comps ∈ pathsMany (match copyTreeOne flt base t with
          | some t' => FTrees.cons t' (copyTreeMany flt base ts')
          | none => copyTreeMany flt base ts') ↔ _
      cases hc : copyTreeOne flt base t with
      | some t' => simp [pathsMany, pathsOpt, List.mem_append]
      | none => simp [pathsOpt]
    rw [hsplit, hone, hmany]
    show _ ↔ comps ∈ pathsOne t ++ pathsMany ts' ∧ _
    rw [List.mem_append]
    constructor
    · rintro (⟨h, hp⟩ | ⟨h, hp⟩)
      · exact ⟨Or.inl h, hp⟩
      · exact ⟨Or.inr h, hp⟩
    · rintro ⟨h | h, hp⟩
      · exact Or.inl ⟨h, hp⟩
      · exact Or.inr ⟨h, hp⟩
end

theorem mem_pathPrefixes_self : ∀ (l : List String), l ≠ [] → l ∈ pathPrefixes l := by
  intro l
  induction l with
  | nil => intro h; exact absurd rfl h
  | cons c cs ih =>
    intro _
    cases cs with
    | nil => simp [pathPrefixes]
    | cons d ds =>
      rw [show pathPrefixes (c :: d :: ds)
            = [c] :: (pathPrefixes (d :: ds)).map (fun q => c :: q) from rfl]
      simp only [List.mem_cons, List.mem_map]
      exact Or.inr ⟨d :: ds, ih (by simp), rfl⟩

mutual
theorem mem_pathsOne_ne_nil : ∀ (t : FTree) (comps : List String),
    comps ∈ pathsOne t → comps ≠ [] := by
  intro t comps h
  cases t with
  | file n =>
    simp only [pathsOne, List.mem_singleton] at h
    subst h
    simp
  | dir n ch =>
    simp only [pathsOne, List.mem_cons, List.mem_map] at h
    rcases h with h | ⟨p, _, hpe⟩
    · subst h; simp
    · subst hpe; simp
theorem mem_pathsMany_ne_nil : ∀ (ts : FTrees) (comps : List String),
    comps ∈ pathsMany ts → comps ≠ [] := by
  intro ts comps h
  cases ts with
  | nil => simp [pathsMany] at h
  | cons t ts' =>
    rw [show pathsMany (FTrees.cons t ts') = pathsOne t ++ pathsMany ts' from rfl,
      List.mem_append] at h
    rcases h with h | h
    · exact mem_pathsOne_ne_nil t comps h
    · exact mem_pathsMany_ne_nil ts' comps h
end

/-! ### Claim theorems -/

/-- C1 (amended): a single substitution pass replaces exactly the scanned
`{\x7bident\x7d}` matches whose identifier is a key of the mapping with that
key's value and reproduces every other match and every literal character
byte-for-byte (the token refinement in the first conjunct); substitution is
the identity on content without a keyed placeholder, and hence substituting
twice equals substituting once whenever the one-pass output is free of
keyed placeholders.  (Unconditional idempotence and unconditional absence of
keyed placeholders after one pass fail, because substituted values are seen
again by a second pass — see the counterexample.) -/
theorem C1_substitution_amended (vars : List (String × String)) (s : String) :
    substituteContent vars s = String.mk (renderToks vars (tokenize s.data))
    ∧ (hasKeyedPlaceholder vars s.data = false → substituteContent vars s = s)
    ∧ (hasKeyedPlaceholder vars (substituteContent vars s).data = false →
        substituteContent vars (substituteContent vars s) = substituteContent vars s) := by
  have hmain : ∀ t : String, hasKeyedPlaceholder vars t.data = false →
      substituteContent vars t = t := by
    intro t ht
    unfold substituteContent
    rw [replaceVars_id vars t.data ht]
  refine ⟨?_, hmain s, fun h => hmain _ h⟩
  unfold substituteContent replaceVars tokenize
  rw [replaceVarsAux_eq_render vars s.data.length s.data (Nat.le_refl _)]

/-- C1 witness: on the spec's concrete scenario content the one-pass output
is keyed-placeholder-free, so the second pass is the identity. -/
theorem C1_substitution_witness :
    hasKeyedPlaceholder [("projectName", "my-site")]
      (substituteContent [("projectName", "my-site")]
        "# \x7b\x7bprojectName\x7d\x7d\nTemplate: portfolio").data = false
    ∧ substituteContent [("projectName", "my-site")]
        (substituteContent [("projectName", "my-site")]
          "# \x7b\x7bprojectName\x7d\x7d\nTemplate: portfolio")
      = substituteContent [("projectName", "my-site")]
          "# \x7b\x7bprojectName\x7d\x7d\nTemplate: portfolio" :=
  ⟨by decide,
   (C1_substitution_amended [("projectName", "my-site")]
      "# \x7b\x7bprojectName\x7d\x7d\nTemplate: portfolio").2.2 (by decide)⟩

/-- C1 counterexample: with value `{\x7ba\x7d}` for key `a`, one pass leaves
a `{\x7ba\x7d}` with `a ∈ keys` in the output, refuting the claimed absence;
with value `a\x7d}` for key `a`, substituting `{\x7b{\x7ba\x7d}` twice
differs from substituting once, refuting the claimed idempotence. -/
theorem C1_substitution_counterexample :
    (substituteContent [("a", "\x7b\x7ba\x7d\x7d")] "\x7b\x7ba\x7d\x7d" = "\x7b\x7ba\x7d\x7d"
      ∧ containsKeyed [("a", "\x7b\x7ba\x7d\x7d")] "\x7b\x7ba\x7d\x7d".data = true)
    ∧ substituteContent [("a", "a\x7d\x7d")]
        (substituteContent [("a", "a\x7d\x7d")] "\x7b\x7b\x7b\x7ba\x7d\x7d")
      ≠ substituteContent [("a", "a\x7d\x7d")] "\x7b\x7b\x7b\x7ba\x7d\x7d" := by
  decide

/-- C2: evaluation of the rename step at the failing input.  The code
computes the new name with a first-occurrence string replacement, so a file
named `a.templateX.template` is renamed to `aX.template` — which still
carries the marker suffix — instead of to `a.templateX` (the end-suffix
strip the claim and the code's own comment describe); and for
`foo.template.template` a second pass renames the already-stripped name
`foo.template` again, to `foo`. -/
theorem C2_rename_first_occurrence :
    renameTemplateFile "a.templateX.template" = "aX.template"
    ∧ stripMarkerSuffixSpec "a.templateX.template" = "a.templateX"
    ∧ endsWithTemplateMarker (renameTemplateFile "a.templateX.template") = true
    ∧ renameTemplateFile "foo.template.template" = "foo.template"
    ∧ renameTemplateFile "foo.template" = "foo" := by
  decide

/-- C3 (amended): an entry path appears in the copy output exactly when it
appears in the source tree and every ancestor (and the entry itself) passes
the installed filter, which rejects a full source path containing
`node_modules` or `.git` as a *substring* and a base name among the two
lockfiles and `node_modules`; consequently no output path contains
`node_modules` or `.git` anywhere, but exclusion is by path substring, not
by base-name membership in the spec's exclusion set. -/
theorem C3_copy_exclusion_amended (base : String) (ts : FTrees) (comps : List String) :
    (comps ∈ pathsMany (copyTreeMany titasCopyFilter base ts)
      ↔ comps ∈ pathsMany ts ∧ allAncestorsPass titasCopyFilter base comps = true)
    ∧ (comps ∈ pathsMany (copyTreeMany titasCopyFilter base ts) →
        containsSeq "node_modules".data (renderPath base comps).data = false
        ∧ containsSeq ".git".data (renderPath base comps).data = false
        ∧ (["package-lock.json", "yarn.lock", "node_modules"].contains
            (String.mk (basenameChars (renderPath base comps).data))) = false) := by
  refine ⟨mem_pathsOpt_copyMany titasCopyFilter base ts comps, ?_⟩
  intro hmem
  have h := (mem_pathsOpt_copyMany titasCopyFilter base ts comps).mp hmem
  have hne : comps ≠ [] := mem_pathsMany_ne_nil ts comps h.1
  have hself : comps ∈ pathPrefixes comps := mem_pathPrefixes_self comps hne
  have hflt : titasCopyFilter (renderPath base comps) = true := by
    have := h.2
    unfold allAncestorsPass at this
    rw [List.all_eq_true] at this
    exact this comps hself
  unfold titasCopyFilter at hflt
  split at hflt
  · exact absurd hflt (by simp)
  · rename_i hcond
    rw [Bool.or_eq_true] at hcond
    push_neg at hcond
    obtain ⟨h1, h2⟩ := hcond
    rw [Bool.not_eq_true'] at hflt
    exact ⟨Bool.eq_false_iff.mpr h1, Bool.eq_false_iff.mpr h2, hflt⟩

/-- C3 witness: a regular template entry passes the filter, is copied, and
its rendered path contains neither excluded substring. -/
theorem C3_copy_exclusion_witness :
    containsSeq "node_modules".data
      (renderPath "/app/templates/portfolio" ["pages", "index.js"]).data = false
    ∧ containsSeq ".git".data
        (renderPath "/app/templates/portfolio" ["pages", "index.js"]).data = false :=
  have h := (C3_copy_exclusion_amended "/app/templates/portfolio"
    (FTrees.cons (FTree.dir "pages" (FTrees.cons (FTree.file "index.js") FTrees.nil))
      FTrees.nil)
    ["pages", "index.js"]).2 (by decide)
  ⟨h.1, h.2.1⟩

/-- C3 counterexample: a file named `.gitignore` — whose base name is in no
category of the spec's exclusion set — is skipped by the copy (its path
contains `.git` as a substring), while a `dist` directory — a build/output
name of the exclusion set — is copied; both directions of "skips exactly
the entries whose base name matches the exclusion set" fail. -/
theorem C3_copy_exclusion_counterexample :
    pathsMany (copyTreeMany titasCopyFilter "/app/templates/portfolio"
        (FTrees.cons (FTree.file ".gitignore")
          (FTrees.cons (FTree.dir "dist" (FTrees.cons (FTree.file "out.js") FTrees.nil))
            FTrees.nil)))
      = [["dist"], ["dist", "out.js"]]
    ∧ specExclusionSet.contains ".gitignore" = false
    ∧ specExclusionSet.contains "dist" = true := by
  decide

/-- C4 (amended): patching an existing manifest sets `name` to the project
name and leaves the script mapping exactly unchanged — existing scripts are
never removed or overwritten, but missing baseline scripts are *not* added
(the baseline `dev`/`build`/`start`/`lint` set is synthesized only when the
manifest is absent or unreadable); the flag-specific dev-dependency entries
are merged so that every unrelated existing entry survives, and patching
twice with the same flags yields the same manifest, dependency set
included. -/
theorem C4_manifest_patch_amended (m : Manifest) (pn : String) (o : CreateOptions) :
    (processTemplateManifest (some m) pn o).name = pn
    ∧ (processTemplateManifest (some m) pn o).scripts = m.scripts
    ∧ (processTemplateManifest (some m) pn o).version = m.version
    ∧ (processTemplateManifest (some m) pn o).dependencies = m.dependencies
    ∧ (∀ p ∈ m.devDependencies, p.1 ∉ flagDepKeys o →
        p ∈ (processTemplateManifest (some m) pn o).devDependencies)
    ∧ processTemplateManifest (some (processTemplateManifest (some m) pn o)) pn o
        = processTemplateManifest (some m) pn o := by
  have hnd_ts : (keysOf tsDevDeps).Nodup := by decide
  have hnd_tw : (keysOf twDevDeps).Nodup := by decide
  have hdisj : ∀ p ∈ tsDevDeps, p.1 ∉ keysOf twDevDeps := by decide
  by_cases hts : o.typescript = true
  · by_cases htw : o.tailwind = true
    · have e : processTemplateManifest (some m) pn o
          = ⟨pn, m.version, m.privateFlag, m.scripts, m.dependencies,
             mergeAssoc (mergeAssoc m.devDependencies tsDevDeps) twDevDeps⟩ := by
        simp [processTemplateManifest, hts, htw]
      have hts_bound : ∀ p ∈ tsDevDeps,
          keyBound (mergeAssoc (mergeAssoc m.devDependencies tsDevDeps) twDevDeps)
            p.1 p.2 := by
        intro p hp
        exact keyBound_mergeAssoc_of_not_mem twDevDeps _
          (keyBound_mergeAssoc_self tsDevDeps m.devDependencies
            (by simpa using hp) hnd_ts)
          (hdisj p hp)
      have htw_bound : ∀ p ∈ twDevDeps,
          keyBound (mergeAssoc (mergeAssoc m.devDependencies tsDevDeps) twDevDeps)
            p.1 p.2 := by
        intro p hp
        exact keyBound_mergeAssoc_self twDevDeps (mergeAssoc m.devDependencies tsDevDeps)
          (by simpa using hp) hnd_tw
      refine ⟨by rw [e], by rw [e], by rw [e], by rw [e], ?_, ?_⟩
      · intro p hp hnk
        rw [e]
        simp only [flagDepKeys, hts, htw, if_true, List.mem_append, not_or] at hnk
        exact mem_mergeAssoc_of_not_key twDevDeps _
          (mem_mergeAssoc_of_not_key tsDevDeps _ hp hnk.1) hnk.2
      · rw [e]
        have e2 : processTemplateManifest
            (some ⟨pn, m.version, m.privateFlag, m.scripts, m.dependencies,
               mergeAssoc (mergeAssoc m.devDependencies tsDevDeps) twDevDeps⟩) pn o
            = ⟨pn, m.version, m.privateFlag, m.scripts, m.dependencies,
               mergeAssoc (mergeAssoc
                 (mergeAssoc (mergeAssoc m.devDependencies tsDevDeps) twDevDeps)
                 tsDevDeps) twDevDeps⟩ := by
          simp [processTemplateManifest, hts, htw]
        rw [e2,
          mergeAssoc_eq_self tsDevDeps _ hts_bound,
          mergeAssoc_eq_self twDevDeps _ htw_bound]
    · rw [Bool.not_eq_true] at htw
      have e : processTemplateManifest (some m) pn o
          = ⟨pn, m.version, m.privateFlag, m.scripts, m.dependencies,
             mergeAssoc m.devDependencies tsDevDeps⟩ := by
        simp [processTemplateManifest, hts, htw]
      have hts_bound : ∀ p ∈ tsDevDeps,
          keyBound (mergeAssoc m.devDependencies tsDevDeps) p.1 p.2 := by
        intro p hp
        exact keyBound_mergeAssoc_self tsDevDeps m.devDependencies
          (by simpa using hp) hnd_ts
      refine ⟨by rw [e], by rw [e], by rw [e], by rw [e], ?_, ?_⟩
      · intro p hp hnk
        rw [e]
        simp only [flagDepKeys, hts, htw, if_true, if_false, List.append_nil,
          List.mem_append, not_or] at hnk
        exact mem_mergeAssoc_of_not_key tsDevDeps _ hp hnk.1
      · rw [e]
        have e2 : processTemplateManifest
            (some ⟨pn, m.version, m.privateFlag, m.scripts, m.dependencies,
               mergeAssoc m.devDependencies tsDevDeps⟩) pn o
            = ⟨pn, m.version, m.privateFlag, m.scripts, m.dependencies,
               mergeAssoc (mergeAssoc m.devDependencies tsDevDeps) tsDevDeps⟩ := by
          simp [processTemplateManifest, hts, htw]
        rw [e2, mergeAssoc_eq_self tsDevDeps _ hts_bound]
  · rw [Bool.not_eq_true] at hts
    by_cases htw : o.tailwind = true
    · have e : processTemplateManifest (some m) pn o
          = ⟨pn, m.version, m.privateFlag, m.scripts, m.dependencies,
             mergeAssoc m.devDependencies twDevDeps⟩ := by
        simp [processTemplateManifest, hts, htw]
      have htw_bound : ∀ p ∈ twDevDeps,
          keyBound (mergeAssoc m.devDependencies twDevDeps) p.1 p.2 := by
        intro p hp
        exact keyBound_mergeAssoc_self twDevDeps m.devDependencies
          (by simpa using hp) hnd_tw
      refine ⟨by rw [e], by rw [e], by rw [e], by rw [e], ?_, ?_⟩
      · intro p hp hnk
        rw [e]
        simp only [flagDepKeys, hts, htw, if_true, if_false, List.nil_append,
          List.mem_append, not_or] at hnk
        exact mem_mergeAssoc_of_not_key twDevDeps _ hp hnk.2
      · rw [e]
        have e2 : processTemplateManifest
            (some ⟨pn, m.version, m.privateFlag, m.scripts, m.dependencies,
               mergeAssoc m.devDependencies twDevDeps⟩) pn o
            = ⟨pn, m.version, m.privateFlag, m.scripts, m.dependencies,
               mergeAssoc (mergeAssoc m.devDependencies twDevDeps) twDevDeps⟩ := by
          simp [processTemplateManifest, hts, htw]
        rw [e2, mergeAssoc_eq_self twDevDeps _ htw_bound]
    · rw [Bool.not_eq_true] at htw
      have e : processTemplateManifest (some m) pn o
          = ⟨pn, m.version, m.privateFlag, m.scripts, m.dependencies,
             m.devDependencies⟩ := by
        simp [processTemplateManifest, hts, htw]
      refine ⟨by rw [e], by rw [e], by rw [e], by rw [e], ?_, ?_⟩
      · intro p hp _
        rw [e]
        exact hp
      · rw [e]
        simp [processTemplateManifest, hts, htw]

/-- C4 witness: an unrelated dev-dependency survives patching with both
flags, and a second patch is a no-op. -/
theorem C4_manifest_patch_witness :
    ("zod", "^3.22.0") ∈ (processTemplateManifest
        (some ⟨"x", "0.0.1", true, [], [], [("zod", "^3.22.0")]⟩)
        "my-site" { typescript := true, tailwind := true }).devDependencies
    ∧ processTemplateManifest (some (processTemplateManifest
          (some ⟨"x", "0.0.1", true, [], [], [("zod", "^3.22.0")]⟩)
          "my-site" { typescript := true, tailwind := true }))
        "my-site" { typescript := true, tailwind := true }
      = processTemplateManifest
          (some ⟨"x", "0.0.1", true, [], [], [("zod", "^3.22.0")]⟩)
          "my-site" { typescript := true, tailwind := true } :=
  have h := C4_manifest_patch_amended ⟨"x", "0.0.1", true, [], [], [("zod", "^3.22.0")]⟩
    "my-site" { typescript := true, tailwind := true }
  ⟨h.2.2.2.2.1 ("zod", "^3.22.0") (by decide) (by decide), h.2.2.2.2.2⟩

/-- C4 counterexample: patching an existing manifest whose scripts lack the
baseline entries leaves its script mapping unchanged — no `dev` script is
ensured, refuting "ensures the baseline script set is present". -/
theorem C4_manifest_patch_counterexample :
    (processTemplateManifest
        (some ⟨"legacy", "1.0.0", false, [("test", "jest")], [], []⟩)
        "my-site" {}).scripts = [("test", "jest")]
    ∧ (keysOf (processTemplateManifest
        (some ⟨"legacy", "1.0.0", false, [("test", "jest")], [], []⟩)
        "my-site" {}).scripts).contains "dev" = false := by
  decide

/-- C5 (amended): no branch of the `createApp` pipeline invokes the template
Bootstrapper (it belongs to the standalone validation script; on a missing
template the copy step merely fails and is ignored — see the
counterexample); the Bootstrapper itself writes a manifest, a readme, a
starter page and a stylesheet, the first three carry the
`{\x7bprojectName\x7d}` placeholder, and substituting the bootstrap output
with `projectName = "my-site"` leaves no `{\x7bprojectName\x7d}` in any of
the four files. -/
theorem C5_bootstrap_amended :
    (∀ (w : World) (pn tt : String) (o : CreateOptions),
        (createAppRun w pn tt o).bootstrapInvoked = false)
    ∧ (bootstrapFiles "webapp").map Prod.fst
        = ["package.json", "README.md", "pages/index.js", "styles/globals.css"]
    ∧ containsSeq "\x7b\x7bprojectName\x7d\x7d".data
        (renderManifestJson (bootstrapPackageJson "webapp")).data = true
    ∧ containsSeq "\x7b\x7bprojectName\x7d\x7d".data (bootstrapReadme "webapp").data = true
    ∧ containsSeq "\x7b\x7bprojectName\x7d\x7d".data (bootstrapIndexJs "webapp").data = true
    ∧ ((bootstrapFiles "webapp").all (fun f =>
        !containsSeq "\x7b\x7bprojectName\x7d\x7d".data
          (substituteContent [("projectName", "my-site")] f.2).data)) = true := by
  refine ⟨?_, by decide, by decide, by decide, by decide, by decide⟩
  intro w pn tt o
  simp [createAppRun, apply_ite]

/-- C5 counterexample: when the resolved template directory does not exist,
the pipeline does not invoke the Bootstrapper and the target ends up with
only the synthesized `package.json` — no readme and no starter page,
refuting the claimed fallback behaviour. -/
theorem C5_bootstrap_counterexample :
    (createAppRun ⟨DirStatus.absent, false, [], false, false⟩
        "my-site" "webapp" {}).bootstrapInvoked = false
    ∧ ((createAppRun ⟨DirStatus.absent, false, [], false, false⟩
        "my-site" "webapp" {}).files).map Prod.fst = ["package.json"]
    ∧ findFile ((createAppRun ⟨DirStatus.absent, false, [], false, false⟩
        "my-site" "webapp" {}).files) "README.md" = none
    ∧ findFile ((createAppRun ⟨DirStatus.absent, false, [], false, false⟩
        "my-site" "webapp" {}).files) "pages/index.js" = none := by
  decide

/-- C6: when the dependency-install step rejects, the error is caught
inside the pipeline and downgraded to a warning: the run still finishes,
the cleanup branch does not run, the exit code is 0, and the target files
are exactly those of the same run without the install failure. -/
theorem C6_install_failure_nonfatal (w : World) (pn tt : String) (o : CreateOptions)
    (hinst : o.install = true) (hfail : w.installFails = true)
    (hdir : ((checkDirectory w.dirStatus).1 && !(checkDirectory w.dirStatus).2) = false) :
    (createAppRun w pn tt o).finished = true
    ∧ (createAppRun w pn tt o).cleanupRan = false
    ∧ (createAppRun w pn tt o).exitCode = 0
    ∧ (createAppRun w pn tt o).installWarned = true
    ∧ (createAppRun w pn tt o).files
        = (createAppRun { w with installFails := false } pn tt o).files := by
  simp [createAppRun, hdir, hinst, hfail, copyStep]

/-- C6 witness: a concrete run with a failing install still produces the
substituted template and the synthesized manifest. -/
theorem C6_install_failure_witness :
    (createAppRun ⟨DirStatus.absent, true,
        [("README.md", FileData.text "# \x7b\x7bprojectName\x7d\x7d")], false, true⟩
      "my-site" "portfolio" {}).finished = true
    ∧ (createAppRun ⟨DirStatus.absent, true,
        [("README.md", FileData.text "# \x7b\x7bprojectName\x7d\x7d")], false, true⟩
      "my-site" "portfolio" {}).cleanupRan = false
    ∧ (createAppRun ⟨DirStatus.absent, true,
        [("README.md", FileData.text "# \x7b\x7bprojectName\x7d\x7d")], false, true⟩
      "my-site" "portfolio" {}).exitCode = 0
    ∧ (createAppRun ⟨DirStatus.absent, true,
        [("README.md", FileData.text "# \x7b\x7bprojectName\x7d\x7d")], false, true⟩
      "my-site" "portfolio" {}).installWarned = true
    ∧ (createAppRun ⟨DirStatus.absent, true,
        [("README.md", FileData.text "# \x7b\x7bprojectName\x7d\x7d")], false, true⟩
      "my-site" "portfolio" {}).files
      = [("README.md", FileData.text "# my-site"),
         ("package.json", FileData.json (basicPackageJson "my-site"))] :=
  have h := C6_install_failure_nonfatal
    ⟨DirStatus.absent, true,
      [("README.md", FileData.text "# \x7b\x7bprojectName\x7d\x7d")], false, true⟩
    "my-site" "portfolio" {} (by decide) (by decide) (by decide)
  ⟨h.1, h.2.1, h.2.2.1, h.2.2.2.1, by decide⟩

/-- C7: in the absence of a filesystem error during the check, the pipeline
fails fatally exactly when the target exists and is non-empty, and on that
fatal outcome it stops before the copy and substitution steps with exit
code 1 and no files written. -/
theorem C7_target_check (w : World) (pn tt : String) (o : CreateOptions)
    (h : w.dirStatus ≠ DirStatus.unreadable) :
    ((createAppRun w pn tt o).failedEarly = true
      ↔ ∃ es, w.dirStatus = DirStatus.present es ∧ es ≠ [])
    ∧ ((createAppRun w pn tt o).failedEarly = true →
        (createAppRun w pn tt o).files = []
        ∧ (createAppRun w pn tt o).exitCode = 1
        ∧ (createAppRun w pn tt o).finished = false) := by
  cases hd : w.dirStatus with
  | absent =>
    constructor
    · simp [createAppRun, checkDirectory, hd]
    · simp [createAppRun, checkDirectory, hd]
  | present es =>
    cases es with
    | nil =>
      constructor
      · simp [createAppRun, checkDirectory, hd]
      · simp [createAppRun, checkDirectory, hd]
    | cons e es' =>
      constructor
      · simp only [createAppRun, checkDirectory, hd, List.isEmpty_cons, Bool.not_false,
          Bool.and_true, if_true]
        constructor
        · intro _
          exact ⟨e :: es', rfl, by simp⟩
        · intro _
          trivial
      · intro _
        refine ⟨?_, ?_, ?_⟩ <;> simp [createAppRun, checkDirectory, hd]
  | unreadable => exact absurd hd h

/-- C7 witness: a target directory that exists with one entry makes the
pipeline fail fatally, with no files written. -/
theorem C7_target_check_witness :
    (createAppRun ⟨DirStatus.present ["index.html"], true, [], false, false⟩
      "my-site" "portfolio" {}).failedEarly = true
    ∧ (createAppRun ⟨DirStatus.present ["index.html"], true, [], false, false⟩
        "my-site" "portfolio" {}).files = []
    ∧ (createAppRun ⟨DirStatus.present ["index.html"], true, [], false, false⟩
        "my-site" "portfolio" {}).exitCode = 1 :=
  have h := C7_target_check ⟨DirStatus.present ["index.html"], true, [], false, false⟩
    "my-site" "portfolio" {} (by decide)
  have hf : (createAppRun ⟨DirStatus.present ["index.html"], true, [], false, false⟩
      "my-site" "portfolio" {}).failedEarly = true :=
    h.1.mpr ⟨["index.html"], rfl, by simp⟩
  ⟨hf, (h.2 hf).1, (h.2 hf).2.1⟩

/-- C8: evaluation of the pipeline at the failing input.  When `fs.copy`
rejects mid-copy, `copyFiles` catches the error itself and returns `false`;
`createApp` ignores that return value, so no cleanup runs, no error is
re-raised, and the run continues to completion with exit code 0 and a
target containing only the synthesized manifest — the claimed
abort/cleanup/re-raise never happens. -/
theorem C8_copy_error_swallowed :
    (createAppRun ⟨DirStatus.absent, true, [("pages/index.js", FileData.text "hello")],
        true, false⟩ "my-site" "portfolio" {}).cleanupRan = false
    ∧ (createAppRun ⟨DirStatus.absent, true, [("pages/index.js", FileData.text "hello")],
        true, false⟩ "my-site" "portfolio" {}).finished = true
    ∧ (createAppRun ⟨DirStatus.absent, true, [("pages/index.js", FileData.text "hello")],
        true, false⟩ "my-site" "portfolio" {}).exitCode = 0
    ∧ (createAppRun ⟨DirStatus.absent, true, [("pages/index.js", FileData.text "hello")],
        true, false⟩ "my-site" "portfolio" {}).files
      = [("package.json", FileData.json (basicPackageJson "my-site"))] := by
  decide

/-- C9: when listing or stat-ing the target raises an error, `checkDirectory`
returns `exists = false, isEmpty = true`, so the orchestrator's target check
passes and the pipeline proceeds as if the target were absent. -/
theorem C9_unreadable_target_check (w : World) (pn tt : String) (o : CreateOptions)
    (h : w.dirStatus = DirStatus.unreadable) :
    checkDirectory w.dirStatus = (false, true)
    ∧ (createAppRun w pn tt o).failedEarly = false
    ∧ (createAppRun w pn tt o).finished = true
    ∧ (createAppRun w pn tt o).exitCode = 0 := by
  simp [createAppRun, checkDirectory, h]

/-- C9 witness: a concrete run against an unreadable target proceeds. -/
theorem C9_unreadable_target_check_witness :
    checkDirectory DirStatus.unreadable = (false, true)
    ∧ (createAppRun ⟨DirStatus.unreadable, true, [], false, false⟩
        "my-site" "portfolio" {}).failedEarly = false
    ∧ (createAppRun ⟨DirStatus.unreadable, true, [], false, false⟩
        "my-site" "portfolio" {}).finished = true :=
  have h := C9_unreadable_target_check ⟨DirStatus.unreadable, true, [], false, false⟩
    "my-site" "portfolio" {} rfl
  ⟨h.1, h.2.1, h.2.2.1⟩

/-- C10: a file whose content contains no `{\x7bk\x7d}` with `k` a key of
the variable mapping — including files containing only unknown placeholders
— is not rewritten (`hasChanges` stays false) and its content is unchanged. -/
theorem C10_no_rewrite_without_keyed (vars : List (String × String)) (p c : String)
    (h : containsKeyed vars c.data = false) :
    (processFile vars p c).wrote = false ∧ (processFile vars p c).content = c := by
  have hk := not_containsKeyed_no_keyed vars c.data h
  have hid := replaceVars_id vars c.data hk
  simp only [processFile]
  split
  · rw [hid]
    exact ⟨rfl, rfl⟩
  · exact ⟨rfl, rfl⟩

/-- C10 witness: an eligible file containing only an unknown placeholder is
left byte-for-byte unchanged and not rewritten. -/
theorem C10_no_rewrite_witness :
    containsKeyed [("projectName", "my-site")]
      "Hello \x7b\x7bunknownVar\x7d\x7d!".data = false
    ∧ (processFile [("projectName", "my-site")] "src/index.js"
        "Hello \x7b\x7bunknownVar\x7d\x7d!").wrote = false
    ∧ (processFile [("projectName", "my-site")] "src/index.js"
        "Hello \x7b\x7bunknownVar\x7d\x7d!").content = "Hello \x7b\x7bunknownVar\x7d\x7d!" :=
  have h := C10_no_rewrite_without_keyed [("projectName", "my-site")] "src/index.js"
    "Hello \x7b\x7bunknownVar\x7d\x7d!" (by decide)
  ⟨by decide, h.1, h.2⟩
